import Mathlib

/-!
Verification of the convex-functional library in
`odl/solvers/functional/default_functionals.py`.

The Python code computes with IEEE double-precision arrays.  We model scalar
values by the type `FloatR` below: a real number together with the three IEEE
special values `+inf`, `-inf` and `nan`, with the IEEE propagation rules for
the operations the code uses (`+`, `-`, `*`, `/`, `log`, `exp`, and scipy's
`xlogy`).  Signed zeros and overflow of finite results are not modelled: a
finite real stands for any representable finite value, so `exp` of a finite
value is finite here.  Vector inputs are `Fin n → FloatR` (or `Fin n → ℝ`
for the purely real-valued functionals), and `x.inner(space.one())` on the
unweighted tensor spaces the functionals are built on is the coordinate sum.
-/

/-- Scalar values of the numeric model: a finite real or one of the IEEE
special values `+inf`, `-inf`, `nan`. -/
inductive FloatR : Type where
  | fin (r : ℝ)
  | inf
  | negInf
  | nan

namespace FloatR

/-- IEEE negation. -/
def neg : FloatR → FloatR
  | fin r => fin (-r)
  | inf => negInf
  | negInf => inf
  | nan => nan

/-- IEEE addition: `nan` absorbs, `inf + (-inf)` is `nan`. -/
def add : FloatR → FloatR → FloatR
  | nan, _ => nan
  | _, nan => nan
  | fin a, fin b => fin (a + b)
  | fin _, inf => inf
  | inf, fin _ => inf
  | fin _, negInf => negInf
  | negInf, fin _ => negInf
  | inf, inf => inf
  | negInf, negInf => negInf
  | inf, negInf => nan
  | negInf, inf => nan

/-- IEEE subtraction, `a - b = a + (-b)`. -/
def sub (a b : FloatR) : FloatR := a.add b.neg

/-- IEEE multiplication: `0 * (±inf)` is `nan`, `nan` absorbs. -/
noncomputable def mul : FloatR → FloatR → FloatR
  | nan, _ => nan
  | _, nan => nan
  | fin a, fin b => fin (a * b)
  | fin a, inf => if a = 0 then nan else if 0 < a then inf else negInf
  | inf, fin a => if a = 0 then nan else if 0 < a then inf else negInf
  | fin a, negInf => if a = 0 then nan else if 0 < a then negInf else inf
  | negInf, fin a => if a = 0 then nan else if 0 < a then negInf else inf
  | inf, inf => inf
  | inf, negInf => negInf
  | negInf, inf => negInf
  | negInf, negInf => inf

/-- IEEE division (with a positive-zero divisor: `a / 0` is `±inf` by the
sign of `a`, and `0 / 0` is `nan`). -/
noncomputable def div : FloatR → FloatR → FloatR
  | nan, _ => nan
  | _, nan => nan
  | fin a, fin b =>
      if b = 0 then (if a = 0 then nan else if 0 < a then inf else negInf)
      else fin (a / b)
  | fin _, inf => fin 0
  | fin _, negInf => fin 0
  | inf, fin b => if b < 0 then negInf else inf
  | negInf, fin b => if b < 0 then inf else negInf
  | inf, inf => nan
  | inf, negInf => nan
  | negInf, inf => nan
  | negInf, negInf => nan

/-- `numpy.log`: `log` of a negative number (or of `-inf`) is `nan`,
`log 0 = -inf`, `log inf = inf`. -/
noncomputable def log : FloatR → FloatR
  | nan => nan
  | inf => inf
  | negInf => nan
  | fin a => if a < 0 then nan else if a = 0 then negInf else fin (Real.log a)

/-- `numpy.exp` (overflow not modelled: a finite argument gives a finite
result): `exp (-inf) = 0`, `exp inf = inf`. -/
noncomputable def exp : FloatR → FloatR
  | nan => nan
  | inf => inf
  | negInf => fin 0
  | fin a => fin (Real.exp a)

/-- `scipy.special.xlogy x y = x * log y`, except that it is `0` whenever
`x = 0` and `y` is not `nan`. -/
noncomputable def xlogy (x y : FloatR) : FloatR :=
  match x, y with
  | fin a, nan => (fin a).mul nan.log
  | fin a, y => if a = 0 then fin 0 else (fin a).mul y.log
  | x, y => x.mul y.log

/-- `numpy.isfinite`. -/
def isFinite : FloatR → Bool
  | fin _ => true
  | _ => false

end FloatR

/-- Sum of a list of IEEE values, as `numpy`'s reduction of `+` starting
from `0` (the fold order is irrelevant for the facts proved below). -/
noncomputable def fsumL : List FloatR → FloatR
  | [] => .fin 0
  | a :: t => a.add (fsumL t)

/-- Coordinate sum of an IEEE vector: `x.inner(space.one())` on an
unweighted tensor space. -/
noncomputable def fsum (x : Fin n → FloatR) : FloatR := fsumL (List.ofFn x)

/-- A sum of finite values is the finite value of the real sum. -/
theorem fsum_fin (n : ℕ) (t : Fin n → ℝ) :
    fsum (fun i => FloatR.fin (t i)) = .fin (∑ i, t i) := by
  unfold fsum
  induction n with
  | zero => simp [fsumL]
  | succ m ih =>
      rw [List.ofFn_succ, Fin.sum_univ_succ]
      simp only [fsumL, ih, FloatR.add]

/-- A sum with no `+inf` term is not `+inf`. -/
theorem fsumL_ne_inf (l : List FloatR) (h : ∀ a ∈ l, a ≠ .inf) :
    fsumL l ≠ .inf := by
  induction l with
  | nil => simp [fsumL]
  | cons a t ih =>
      have ha : a ≠ .inf := h a (by simp)
      have ht : fsumL t ≠ .inf := ih (fun b hb => h b (by simp [hb]))
      simp only [fsumL]
      cases a <;> cases hsum : fsumL t <;>
        simp_all [FloatR.add]

/-- A sum with no `+inf` term and at least one non-finite term is
non-finite. -/
theorem fsumL_not_finite (l : List FloatR) (hinf : ∀ a ∈ l, a ≠ .inf)
    (h : ∃ a ∈ l, a.isFinite = false) : (fsumL l).isFinite = false := by
  induction l with
  | nil => simp at h
  | cons a t ih =>
      have ha : a ≠ .inf := hinf a (by simp)
      have htinf : ∀ b ∈ t, b ≠ FloatR.inf := fun b hb => hinf b (by simp [hb])
      have htne : fsumL t ≠ .inf := fsumL_ne_inf t htinf
      simp only [fsumL]
      rcases h with ⟨b, hb, hbf⟩
      rcases List.mem_cons.mp hb with hba | hbt
      · subst hba
        cases b <;> cases hsum : fsumL t <;>
          simp_all [FloatR.add, FloatR.isFinite]
      · have := ih htinf ⟨b, hbt, hbf⟩
        cases a <;> cases hsum : fsumL t <;>
          simp_all [FloatR.add, FloatR.isFinite]

/-- Clamp of the final reduction in the first three KL `_call` methods:
`if not np.isfinite(res): return np.inf else: return res`. -/
noncomputable def finClamp (res : FloatR) : FloatR :=
  if res.isFinite then res else .inf

/-- The clamp always yields a finite value or `+inf`. -/
theorem finClamp_finite_or_inf (res : FloatR) :
    (finClamp res).isFinite = true ∨ finClamp res = .inf := by
  unfold finClamp
  cases h : res.isFinite <;> simp [h]

/-- `KullbackLeibler._call`: with prior `g` the raw value is
`sum (x - g + xlogy (g, g / x))` (or `sum (x - 1 - log x)` without a prior),
clamped to `+inf` when non-finite. -/
noncomputable def klCall (prior : Option (Fin n → FloatR)) (x : Fin n → FloatR) :
    FloatR :=
  finClamp <|
    match prior with
    | none => fsum fun i => ((x i).sub (.fin 1)).sub (x i).log
    | some g => fsum fun i => ((x i).sub (g i)).add ((g i).xlogy ((g i).div (x i)))

/-- `KullbackLeiblerConvexConj._call`: the raw value is
`-sum (xlogy (g, 1 - x))` (or `-sum (log (1 - x))` without a prior), clamped
to `+inf` when non-finite. -/
noncomputable def klConvexConjCall (prior : Option (Fin n → FloatR))
    (x : Fin n → FloatR) : FloatR :=
  finClamp <|
    match prior with
    | none => (fsum fun i => ((FloatR.fin 1).sub (x i)).log).neg
    | some g => (fsum fun i => (g i).xlogy ((FloatR.fin 1).sub (x i))).neg

/-- `KullbackLeiblerCrossEntropy._call`: the raw value is
`sum (g - x + xlogy (x, x / g))` (or `sum (1 - x + xlogy (x, x))` without a
prior), clamped to `+inf` when non-finite. -/
noncomputable def klCrossCall (prior : Option (Fin n → FloatR))
    (x : Fin n → FloatR) : FloatR :=
  finClamp <|
    match prior with
    | none => fsum fun i => ((FloatR.fin 1).sub (x i)).add ((x i).xlogy (x i))
    | some g => fsum fun i => ((g i).sub (x i)).add ((x i).xlogy ((x i).div (g i)))

/-- `KullbackLeiblerCrossEntropyConvexConj._call`: `sum (g * (exp x - 1))`
(or `sum (exp x - 1)` without a prior).  Unlike the other three `_call`
methods it applies no finiteness check to the result. -/
noncomputable def klCrossConvexConjCall (prior : Option (Fin n → FloatR))
    (x : Fin n → FloatR) : FloatR :=
  match prior with
  | none => fsum fun i => (x i).exp.sub (.fin 1)
  | some g => fsum fun i => (g i).mul ((x i).exp.sub (.fin 1))

/-- Claim C3 (amended): `KullbackLeibler`, `KullbackLeiblerConvexConj` and
`KullbackLeiblerCrossEntropy` clamp a non-finite result to `+inf`, so for
every input (prior and point, finite or not) they return a finite value or
`+inf`, never `nan`.  The fourth functional of the family,
`KullbackLeiblerCrossEntropyConvexConj`, has no such clamp; see the
counterexample. -/
theorem kl_family_finite_or_inf (n : ℕ) (prior : Option (Fin n → FloatR))
    (x : Fin n → FloatR) :
    ((klCall prior x).isFinite = true ∨ klCall prior x = .inf) ∧
    ((klConvexConjCall prior x).isFinite = true ∨ klConvexConjCall prior x = .inf) ∧
    ((klCrossCall prior x).isFinite = true ∨ klCrossCall prior x = .inf) :=
  ⟨finClamp_finite_or_inf _, finClamp_finite_or_inf _, finClamp_finite_or_inf _⟩

/-- Claim C3 counterexample: `KullbackLeiblerCrossEntropyConvexConj._call`
applies no finiteness check, and with prior `[0]` at the point `[+inf]` it
returns `nan` (`0 * (exp inf - 1) = 0 * inf = nan`), which is neither finite
nor `+inf`. -/
theorem klCrossEntropyConvexConj_nan_counterexample :
    klCrossConvexConjCall (some ![FloatR.fin 0]) ![FloatR.inf] = FloatR.nan ∧
    FloatR.nan.isFinite = false ∧ FloatR.nan ≠ FloatR.inf := by
  refine ⟨?_, rfl, by simp⟩
  show fsum (fun i : Fin 1 => ((![FloatR.fin 0]) i).mul
      (((![FloatR.inf]) i).exp.sub (.fin 1))) = FloatR.nan
  simp [fsum, List.ofFn_succ, fsumL, FloatR.mul, FloatR.sub, FloatR.neg,
    FloatR.add, FloatR.exp]

/-- Subtraction of finite values is finite. -/
theorem FloatR.sub_fin (a b : ℝ) :
    (FloatR.fin a).sub (FloatR.fin b) = FloatR.fin (a - b) := by
  simp [FloatR.sub, FloatR.neg, FloatR.add]
  ring

/-- Equation for `xlogy` on two finite arguments. -/
theorem FloatR.xlogy_fin_fin (a b : ℝ) :
    (FloatR.fin a).xlogy (FloatR.fin b)
      = if a = 0 then FloatR.fin 0 else (FloatR.fin a).mul (FloatR.fin b).log := by
  rw [FloatR.xlogy]
  intro h
  exact FloatR.noConfusion h

/-- Value of an `xlogy (g, 1 - x)` term for a nonnegative prior component
`g` such that `g > 0` implies `x < 1`: the finite value `g * log (1 - x)`
(for `g = 0` both sides are `0`, by scipy's `xlogy` convention on the left
and by `0 * junk = 0` on the right). -/
theorem xlogy_one_sub_eq_fin (g x : ℝ) (hg : 0 ≤ g) (h : 0 < g → x < 1) :
    (FloatR.fin g).xlogy ((FloatR.fin 1).sub (FloatR.fin x))
      = FloatR.fin (g * Real.log (1 - x)) := by
  rw [FloatR.sub_fin]
  rcases eq_or_lt_of_le hg with hg0 | hgpos
  · rw [← hg0]
    simp [FloatR.xlogy_fin_fin]
  · have hx : 0 < 1 - x := by linarith [h hgpos]
    rw [FloatR.xlogy_fin_fin]
    rw [if_neg (ne_of_gt hgpos)]
    rw [FloatR.log, if_neg (by linarith), if_neg (by linarith)]
    rw [FloatR.mul]

/-- An `xlogy (g, 1 - x)` term with `g > 0` and `x ≥ 1` is non-finite
(`-inf` at `x = 1`, `nan` for `x > 1`). -/
theorem xlogy_one_sub_not_finite (g x : ℝ) (hgpos : 0 < g) (hx : 1 ≤ x) :
    ((FloatR.fin g).xlogy ((FloatR.fin 1).sub (FloatR.fin x))).isFinite = false := by
  rw [FloatR.sub_fin, FloatR.xlogy_fin_fin, if_neg (ne_of_gt hgpos)]
  rcases eq_or_lt_of_le hx with hx1 | hx1
  · rw [FloatR.log, if_neg (by linarith), if_pos (by linarith)]
    rw [FloatR.mul, if_neg (ne_of_gt hgpos), if_pos hgpos]
    rfl
  · rw [FloatR.log, if_pos (by linarith)]
    rfl

/-- An `xlogy (g, 1 - x)` term with nonnegative `g` is never `+inf`. -/
theorem xlogy_one_sub_ne_inf (g x : ℝ) (hg : 0 ≤ g) :
    (FloatR.fin g).xlogy ((FloatR.fin 1).sub (FloatR.fin x)) ≠ FloatR.inf := by
  rw [FloatR.sub_fin, FloatR.xlogy_fin_fin]
  rcases eq_or_lt_of_le hg with hg0 | hgpos
  · rw [if_pos hg0.symm]
    simp
  · rw [if_neg (ne_of_gt hgpos), FloatR.log]
    rcases lt_trichotomy (1 - x) 0 with hc | hc | hc
    · rw [if_pos hc]
      show FloatR.nan ≠ FloatR.inf
      simp
    · rw [if_neg (by linarith), if_pos hc, FloatR.mul,
        if_neg (ne_of_gt hgpos), if_pos hgpos]
      simp
    · rw [if_neg (by linarith), if_neg (by linarith)]
      show FloatR.fin (g * Real.log (1 - x)) ≠ FloatR.inf
      simp

/-- Negating a non-finite value gives a non-finite value. -/
theorem FloatR.neg_not_finite (a : FloatR) (h : a.isFinite = false) :
    a.neg.isFinite = false := by
  cases a <;> simp_all [FloatR.neg, FloatR.isFinite]

/-- The clamp maps a non-finite value to `+inf`. -/
theorem finClamp_of_not_finite (a : FloatR) (h : a.isFinite = false) :
    finClamp a = .inf := by
  unfold finClamp
  rw [h]
  rfl

/-- Characterisation of `KullbackLeiblerConvexConj._call` on finite real
inputs with a nonnegative prior `g`: when every component with `g i > 0` has
`x i < 1` the value is the finite `sum (-(g * log (1 - x)))`, and when some
component has `g i > 0` and `x i ≥ 1` the value is `+inf`.  Components with
`g i = 0` impose no constraint, because `scipy.special.xlogy (0, y) = 0`
for every non-`nan` `y`. -/
theorem klConvexConj_eval_characterization (n : ℕ) (g x : Fin n → ℝ)
    (hg : ∀ i, 0 ≤ g i) :
    ((∀ i, 0 < g i → x i < 1) →
       klConvexConjCall (some fun i => .fin (g i)) (fun i => .fin (x i))
         = .fin (∑ i, -(g i * Real.log (1 - x i)))) ∧
    ((∃ i, 0 < g i ∧ 1 ≤ x i) →
       klConvexConjCall (some fun i => .fin (g i)) (fun i => .fin (x i)) = .inf) := by
  constructor
  · intro hlt
    show finClamp ((fsum fun i => (FloatR.fin (g i)).xlogy
        ((FloatR.fin 1).sub (.fin (x i)))).neg) = _
    have hterm : (fun i => (FloatR.fin (g i)).xlogy
        ((FloatR.fin 1).sub (.fin (x i))))
        = fun i => FloatR.fin (g i * Real.log (1 - x i)) :=
      funext fun i => xlogy_one_sub_eq_fin (g i) (x i) (hg i) (hlt i)
    rw [hterm, fsum_fin]
    rw [show (FloatR.fin (∑ i, g i * Real.log (1 - x i))).neg
        = FloatR.fin (∑ i, -(g i * Real.log (1 - x i))) by
      simp [FloatR.neg, Finset.sum_neg_distrib]]
    rfl
  · rintro ⟨i₀, hgpos, hx1⟩
    show finClamp ((fsum fun i => (FloatR.fin (g i)).xlogy
        ((FloatR.fin 1).sub (.fin (x i)))).neg) = _
    apply finClamp_of_not_finite
    apply FloatR.neg_not_finite
    unfold fsum
    apply fsumL_not_finite
    · intro a ha
      rcases (List.mem_ofFn _ _).mp ha with ⟨i, rfl⟩
      exact xlogy_one_sub_ne_inf (g i) (x i) (hg i)
    · refine ⟨_, (List.mem_ofFn _ _).mpr ⟨i₀, rfl⟩, ?_⟩
      exact xlogy_one_sub_not_finite (g i₀) (x i₀) hgpos hx1

/-- Claim C4, evaluation at the failing input: with the nonnegative prior
`g = [0]` and the point `x = [2]` (whose only component satisfies
`x 0 = 2 ≥ 1`), `KullbackLeiblerConvexConj._call` returns the finite value
`0`, not `+inf`: `xlogy (0, 1 - 2) = 0` silences the domain violation. -/
theorem klConvexConj_zero_prior_failing :
    klConvexConjCall (some ![FloatR.fin 0]) ![FloatR.fin 2] = FloatR.fin 0 ∧
    FloatR.fin 0 ≠ FloatR.inf := by
  refine ⟨?_, by simp⟩
  show finClamp ((fsum fun i : Fin 1 => ((![FloatR.fin 0]) i).xlogy
      ((FloatR.fin 1).sub ((![FloatR.fin 2]) i))).neg) = _
  have h2 : (FloatR.fin 1).sub (FloatR.fin 2) = FloatR.fin (-1) := by
    rw [FloatR.sub_fin]; norm_num
  simp only [Matrix.cons_val_zero, Matrix.cons_val_fin_one, h2]
  rw [show (FloatR.fin 0).xlogy (FloatR.fin (-1)) = FloatR.fin 0 by
    rw [FloatR.xlogy_fin_fin]; simp]
  simp [fsum, List.ofFn_succ, fsumL, FloatR.add, FloatR.neg, finClamp,
    FloatR.isFinite]

/-- Intermediate array `tmp` of `KLCrossEntropyGradient._call`:
`log x` without a prior, `log (x / g)` with prior `g`. -/
noncomputable def klCrossEntTmp (prior : Option (Fin n → FloatR))
    (x : Fin n → FloatR) : Fin n → FloatR :=
  match prior with
  | none => fun i => (x i).log
  | some g => fun i => ((x i).div (g i)).log

/-- `KLCrossEntropyGradient._call`: returns the array `tmp` when all its
components are finite, and raises (`none`) otherwise. -/
noncomputable def klCrossEntropyGradientCall (prior : Option (Fin n → FloatR))
    (x : Fin n → FloatR) : Option (Fin n → FloatR) :=
  if ∀ i, ((klCrossEntTmp prior x) i).isFinite = true
  then some (klCrossEntTmp prior x) else none

/-- `KLGradient._call`: always returns `(-g) / x + 1` (`(-1) / x + 1`
without a prior); there is no raising path. -/
noncomputable def klGradientCall (prior : Option (Fin n → FloatR))
    (x : Fin n → FloatR) : Option (Fin n → FloatR) :=
  match prior with
  | none => some fun i => ((FloatR.fin (-1)).div (x i)).add (.fin 1)
  | some g => some fun i => ((g i).neg.div (x i)).add (.fin 1)

/-- The logarithm of a quotient of a non-positive numerator by a
nonnegative denominator is non-finite (`nan` or `-inf`). -/
theorem log_div_nonpos_not_finite (a b : ℝ) (ha : a ≤ 0) (hb : 0 ≤ b) :
    (((FloatR.fin a).div (FloatR.fin b)).log).isFinite = false := by
  rw [FloatR.div]
  rcases eq_or_lt_of_le hb with hb0 | hbpos
  · rw [if_pos hb0.symm]
    rcases eq_or_lt_of_le ha with ha0 | haneg
    · rw [if_pos ha0]
      rfl
    · rw [if_neg (ne_of_lt haneg), if_neg (by linarith)]
      rfl
  · rw [if_neg (ne_of_gt hbpos)]
    have hq : a / b ≤ 0 := div_nonpos_iff.mpr (Or.inr ⟨ha, le_of_lt hbpos⟩)
    rw [FloatR.log]
    rcases eq_or_lt_of_le hq with hq0 | hqneg
    · rw [if_neg (by linarith), if_pos hq0]
      rfl
    · rw [if_pos hqneg]
      rfl

/-- Claim C5: with a nonnegative prior and a point having a non-positive
component, the `KullbackLeiblerCrossEntropy` gradient raises (`log` of the
quotient is non-finite there, so `_call` raises a `ValueError`), whereas
the `KullbackLeibler` gradient returns the array `(-g) / x + 1` without
raising; moreover whenever the cross-entropy gradient does return, every
component of the returned array is finite. -/
theorem kl_gradient_asymmetry (n : ℕ) (g x : Fin n → ℝ) (hg : ∀ i, 0 ≤ g i)
    (i₀ : Fin n) (hx : x i₀ ≤ 0) :
    klCrossEntropyGradientCall (some fun i => .fin (g i)) (fun i => .fin (x i))
      = none ∧
    klGradientCall (some fun i => .fin (g i)) (fun i => .fin (x i))
      = some (fun i => ((FloatR.fin (g i)).neg.div (.fin (x i))).add (.fin 1)) ∧
    (∀ (p : Option (Fin n → FloatR)) (y v : Fin n → FloatR),
       klCrossEntropyGradientCall p y = some v → ∀ i, (v i).isFinite = true) := by
  refine ⟨?_, rfl, ?_⟩
  · rw [klCrossEntropyGradientCall, if_neg]
    intro hall
    have := hall i₀
    rw [klCrossEntTmp] at this
    rw [log_div_nonpos_not_finite (x i₀) (g i₀) hx (hg i₀)] at this
    exact Bool.false_ne_true this
  · intro p y v hv i
    rw [klCrossEntropyGradientCall] at hv
    by_cases hall : ∀ j, ((klCrossEntTmp p y) j).isFinite = true
    · rw [if_pos hall] at hv
      cases hv
      exact hall i
    · rw [if_neg hall] at hv
      exact Option.noConfusion hv

/-- Claim C5 witness: at prior `[1]` and point `[0]` the cross-entropy
gradient raises while the KL gradient returns (with value `-inf`). -/
theorem kl_gradient_asymmetry_witness :
    klCrossEntropyGradientCall (some fun i => .fin ((![1] : Fin 1 → ℝ) i))
      (fun i => .fin ((![0] : Fin 1 → ℝ) i)) = none ∧
    klGradientCall (some fun i => .fin ((![1] : Fin 1 → ℝ) i))
      (fun i => .fin ((![0] : Fin 1 → ℝ) i))
      = some (fun i => ((FloatR.fin ((![1] : Fin 1 → ℝ) i)).neg.div
          (.fin ((![0] : Fin 1 → ℝ) i))).add (.fin 1)) :=
  ⟨(kl_gradient_asymmetry 1 ![1] ![0] (fun i => by fin_cases i; norm_num)
      0 (by norm_num)).1,
   (kl_gradient_asymmetry 1 ![1] ![0] (fun i => by fin_cases i; norm_num)
      0 (by norm_num)).2.1⟩

/-- Exponent of an Lp-norm: a finite real, `+inf` or `-inf` (the values
`LpNorm` dispatches on; `nan` never arises from these under the modelled
conjugation). -/
inductive Exp : Type where
  | fin (r : ℝ)
  | inf
  | negInf

/-- Modelled from the spec: `conj_exponent` lives in `odl.util`, which is
not part of the sources; the spec defines the conjugate exponent `q` by
`1/p + 1/q = 1`, with `q = inf` when `p = 1` (hence `q = p / (p - 1)` for
other finite `p`, and `q = 1` when `p = ±inf`). -/
noncomputable def conjExponent : Exp → Exp
  | .fin p => if p = 1 then .inf else .fin (p / (p - 1))
  | .inf => .fin 1
  | .negInf => .fin 1

/-- Euclidean norm of a real vector, `x.norm()` on an unweighted tensor
space (also the `p = 2` branch of `LpNorm._call`, `sqrt (x.inner x)`). -/
noncomputable def euclNorm (x : Fin k → ℝ) : ℝ := Real.sqrt (∑ i, (x i) ^ 2)

/-- `LpNorm._call` on a nonempty real vector: five disjoint branches keyed
on the exponent — `p = 0` counts the nonzero support, `p = 1` sums absolute
values, `p = 2` is `sqrt (x.inner x)`, general finite `p` is
`(sum |x| ^ p) ^ (1/p)`, `p = inf` is the max and `p = -inf` the min of the
absolute values. -/
noncomputable def lpNormEval (p : Exp) (x : Fin (n + 1) → ℝ) : ℝ :=
  match p with
  | .fin r =>
      if r = 0 then ∑ i, (if x i ≠ 0 then (1 : ℝ) else 0)
      else if r = 1 then ∑ i, |x i|
      else if r = 2 then euclNorm x
      else (∑ i, |x i| ^ r) ^ (1 / r)
  | .inf => Finset.univ.sup' Finset.univ_nonempty fun i => |x i|
  | .negInf => Finset.univ.inf' Finset.univ_nonempty fun i => |x i|

/-- The functionals reachable from `LpNorm` by iterated conjugation:
`LpNorm p` (with `L1Norm = lp 1`, `L2Norm = lp 2`) and
`IndicatorLpUnitBall p`. -/
inductive Func : Type where
  | lp (p : Exp)
  | indLpBall (p : Exp)

/-- `convex_conj` of the two classes: `LpNorm(p).convex_conj` is
`IndicatorLpUnitBall(conj_exponent(p))`; `IndicatorLpUnitBall(q).convex_conj`
is `L1Norm` for `q = inf`, `L2Norm` for `q = 2`, and
`LpNorm(conj_exponent(q))` otherwise. -/
noncomputable def Func.convexConj : Func → Func
  | .lp p => .indLpBall (conjExponent p)
  | .indLpBall .inf => .lp (.fin 1)
  | .indLpBall (.fin r) => if r = 2 then .lp (.fin 2) else .lp (conjExponent (.fin r))
  | .indLpBall .negInf => .lp (conjExponent .negInf)

/-- Evaluation: an `lp` functional returns the norm value, an `indLpBall`
functional returns `0` when the norm is at most `1` and `+inf` otherwise. -/
noncomputable def Func.eval (f : Func) (x : Fin (n + 1) → ℝ) : EReal :=
  match f with
  | .lp p => (lpNormEval p x : ℝ)
  | .indLpBall p => if 1 < lpNormEval p x then ⊤ else 0

/-- The double conjugate of `LpNorm p` is `LpNorm p` again, for every
exponent other than `-inf`. -/
theorem lp_biconj_eq (p : Exp) (hp : p ≠ Exp.negInf) :
    (Func.lp p).convexConj.convexConj = Func.lp p := by
  cases p with
  | inf =>
      show Func.convexConj (.indLpBall (conjExponent .inf)) = _
      rw [conjExponent]
      show (if (1 : ℝ) = 2 then Func.lp (.fin 2) else Func.lp (conjExponent (.fin 1))) = _
      rw [if_neg (by norm_num), conjExponent, if_pos rfl]
  | negInf => exact absurd rfl hp
  | fin r =>
      show Func.convexConj (.indLpBall (conjExponent (.fin r))) = _
      by_cases hr1 : r = 1
      · subst hr1
        rw [conjExponent, if_pos rfl]
        rfl
      · have hrs : r - 1 ≠ 0 := sub_ne_zero.mpr hr1
        rw [conjExponent, if_neg hr1]
        show (if r / (r - 1) = 2 then Func.lp (.fin 2)
            else Func.lp (conjExponent (.fin (r / (r - 1))))) = _
        by_cases hq2 : r / (r - 1) = 2
        · have hr2 : r = 2 := by
            have := (div_eq_iff hrs).mp hq2
            linarith
          rw [if_pos hq2, hr2]
        · rw [if_neg hq2, conjExponent]
          have hq1 : r / (r - 1) ≠ 1 := by
            intro h1
            have := (div_eq_iff hrs).mp h1
            linarith
          rw [if_neg hq1]
          have hqsub : r / (r - 1) - 1 = 1 / (r - 1) := by
            field_simp
          have : r / (r - 1) / (r / (r - 1) - 1) = r := by
            rw [hqsub]
            field_simp
          rw [this]

/-- Claim C2 (amended): for every exponent `p` other than `-inf`,
`LpNorm(p).convex_conj` is `IndicatorLpUnitBall` at the conjugate exponent
(which for finite `p` not in `{0, 1}` is the finite `q = p / (p - 1)` with
`1/p + 1/q = 1`, and is `inf` for `p = 1`), and the double conjugate
evaluates identically to the original `LpNorm` at every point.  For
`p = -inf` the round trip fails; see the counterexample. -/
theorem lpnorm_conj_roundtrip (p : Exp) (hp : p ≠ Exp.negInf) (n : ℕ)
    (x : Fin (n + 1) → ℝ) :
    (Func.lp p).convexConj = Func.indLpBall (conjExponent p) ∧
    (∀ r : ℝ, p = .fin r → r ≠ 0 → r ≠ 1 →
       ∃ q : ℝ, conjExponent p = .fin q ∧ 1 / r + 1 / q = 1) ∧
    conjExponent (.fin 1) = .inf ∧
    (Func.lp p).convexConj.convexConj.eval x = (Func.lp p).eval x := by
  refine ⟨rfl, ?_, by rw [conjExponent, if_pos rfl], ?_⟩
  · rintro r rfl hr0 hr1
    refine ⟨r / (r - 1), by rw [conjExponent, if_neg hr1], ?_⟩
    have hrs : r - 1 ≠ 0 := sub_ne_zero.mpr hr1
    field_simp
  · rw [lp_biconj_eq p hp]

/-- Claim C2 witness: the round trip at the concrete exponent `p = 3` and
point `[5]`. -/
theorem lpnorm_conj_roundtrip_witness :
    (Func.lp (Exp.fin 3)).convexConj = Func.indLpBall (conjExponent (Exp.fin 3)) ∧
    (∀ r : ℝ, Exp.fin 3 = .fin r → r ≠ 0 → r ≠ 1 →
       ∃ q : ℝ, conjExponent (Exp.fin 3) = .fin q ∧ 1 / r + 1 / q = 1) ∧
    conjExponent (.fin 1) = .inf ∧
    (Func.lp (Exp.fin 3)).convexConj.convexConj.eval ![5]
      = (Func.lp (Exp.fin 3)).eval ![5] :=
  lpnorm_conj_roundtrip (Exp.fin 3) (fun h => Exp.noConfusion h) 0 ![5]

/-- Claim C2 counterexample: for `p = -inf` the double conjugate of
`LpNorm` is the `inf`-norm (the max of the absolute values), which does not
evaluate identically to `LpNorm(-inf)` (the min): at `[1, 2]` the double
conjugate gives `2` while the original gives `1`. -/
theorem lpnorm_conj_negInf_counterexample :
    (Func.lp Exp.negInf).convexConj.convexConj.eval ![1, 2]
      ≠ (Func.lp Exp.negInf).eval ![1, 2] := by
  have hconj : (Func.lp Exp.negInf).convexConj.convexConj = Func.lp Exp.inf := by
    show Func.convexConj (.indLpBall (conjExponent .negInf)) = _
    rw [conjExponent]
    show (if (1 : ℝ) = 2 then Func.lp (.fin 2)
        else Func.lp (conjExponent (.fin 1))) = _
    rw [if_neg (by norm_num), conjExponent, if_pos rfl]
  rw [hconj]
  have hsup : lpNormEval Exp.inf (![1, 2] : Fin 2 → ℝ) = 2 := by
    rw [lpNormEval]
    apply le_antisymm
    · apply Finset.sup'_le
      intro i _
      fin_cases i <;> simp
    · calc (2 : ℝ) = |(![1, 2] : Fin 2 → ℝ) 1| := by norm_num
        _ ≤ _ := Finset.le_sup' (fun i => |(![1, 2] : Fin 2 → ℝ) i|)
          (Finset.mem_univ (1 : Fin 2))
  have hinf : lpNormEval Exp.negInf (![1, 2] : Fin 2 → ℝ) = 1 := by
    rw [lpNormEval]
    apply le_antisymm
    · calc Finset.univ.inf' Finset.univ_nonempty (fun i => |(![1, 2] : Fin 2 → ℝ) i|)
          ≤ |(![1, 2] : Fin 2 → ℝ) 0| := Finset.inf'_le
            (fun i => |(![1, 2] : Fin 2 → ℝ) i|) (Finset.mem_univ (0 : Fin 2))
        _ = 1 := by norm_num
    · apply Finset.le_inf'
      intro i _
      fin_cases i <;> simp
  show ((lpNormEval Exp.inf (![1, 2] : Fin 2 → ℝ) : ℝ) : EReal)
      ≠ ((lpNormEval Exp.negInf (![1, 2] : Fin 2 → ℝ) : ℝ) : EReal)
  rw [hsup, hinf]
  intro h
  have : (2 : ℝ) = 1 := by exact_mod_cast h
  norm_num at this

/-- `L2Gradient._call` (the gradient of `LpNorm` with exponent `2`):
the zero element when `x.norm() == 0`, and `x / x.norm()` otherwise. -/
noncomputable def l2GradientCall (x : Fin k → ℝ) : Fin k → ℝ :=
  if euclNorm x = 0 then 0 else fun i => x i / euclNorm x

/-- Claim C8: the norm used by the `p = 2` gradient vanishes exactly at the
zero element, where the gradient returns the zero element; at every other
point the norm is nonzero and the gradient is `x / ‖x‖`, so the division
branch is never taken with a zero norm.  The norm is exactly the `p = 2`
branch of `LpNorm._call`. -/
theorem lpnorm_l2_gradient (k : ℕ) (x : Fin k → ℝ) :
    (euclNorm x = 0 ↔ x = 0) ∧
    (x = 0 → l2GradientCall x = 0) ∧
    (x ≠ 0 → euclNorm x ≠ 0 ∧ l2GradientCall x = fun i => x i / euclNorm x) ∧
    (∀ (m : ℕ) (y : Fin (m + 1) → ℝ), lpNormEval (Exp.fin 2) y = euclNorm y) := by
  have hnorm : ∀ (m : ℕ) (z : Fin m → ℝ), euclNorm z = 0 ↔ z = 0 := by
    intro m z
    unfold euclNorm
    rw [Real.sqrt_eq_zero (by positivity)]
    constructor
    · intro h
      funext i
      have hz := (Finset.sum_eq_zero_iff_of_nonneg
        (fun i _ => sq_nonneg (z i))).mp h i (Finset.mem_univ i)
      exact (pow_eq_zero_iff two_ne_zero).mp hz
    · rintro rfl
      simp
  refine ⟨hnorm k x, ?_, ?_, ?_⟩
  · rintro rfl
    rw [l2GradientCall, if_pos ((hnorm k 0).mpr rfl)]
  · intro hx
    have hne : euclNorm x ≠ 0 := fun h => hx ((hnorm k x).mp h)
    exact ⟨hne, by rw [l2GradientCall, if_neg hne]⟩
  · intro m y
    rw [lpNormEval, if_neg (by norm_num : (2 : ℝ) ≠ 0),
      if_neg (by norm_num : (2 : ℝ) ≠ 1), if_pos rfl]

/-- Claim C8 witness: at the zero element of a two-dimensional space the
`p = 2` gradient returns the zero element. -/
theorem lpnorm_l2_gradient_witness : l2GradientCall (0 : Fin 2 → ℝ) = 0 :=
  (lpnorm_l2_gradient 2 0).2.1 rfl

/-- Modelled from the spec: `PointwiseNorm(space, 2)` lives in
`odl.operator.tensor_ops`, which is not part of the sources; per the spec,
vector-valued points use the Euclidean norm of the component vector at each
point. -/
noncomputable def pointwiseNorm2 (x : Fin m → Fin k → ℝ) : Fin k → ℝ :=
  fun t => Real.sqrt (∑ j, (x j t) ^ 2)

/-- Pointwise smoothing and final reduction of `Huber._call`, applied to
the pointwise-norm array: for `gamma > 0` the value at a point is
`norm^2 * (1 / (2 * gamma))` where the norm is below `gamma`, overwritten
with `norm - gamma / 2` where `norm >= gamma`; for `gamma = 0` the array is
kept as is.  The result is `tmp.inner(one)`, the sum. -/
noncomputable def huberEvalBase (gamma : ℝ) (normx : Fin k → ℝ) : ℝ :=
  if 0 < gamma then
    ∑ t, (if gamma ≤ normx t then normx t - gamma / 2
          else (normx t) ^ 2 * (1 / (2 * gamma)))
  else ∑ t, normx t

/-- `Huber._call` on a plain tensor-space domain: the pointwise-norm array
is `x.ufuncs.absolute()`. -/
noncomputable def huberEval (gamma : ℝ) (x : Fin k → ℝ) : ℝ :=
  huberEvalBase gamma fun t => |x t|

/-- `Huber._call` on a `ProductSpace` domain: the pointwise-norm array is
`PointwiseNorm(domain, 2)(x)`. -/
noncomputable def huberEvalProd (gamma : ℝ) (x : Fin m → Fin k → ℝ) : ℝ :=
  huberEvalBase gamma (pointwiseNorm2 x)

/-- `GroupL1Norm._call` with exponent `2`:
`PointwiseNorm(space, 2)(x).inner(one)`, the pointwise Euclidean norm
summed over the points. -/
noncomputable def groupL1Eval (x : Fin m → Fin k → ℝ) : ℝ :=
  ∑ t, pointwiseNorm2 x t

/-- Claim C6: `Huber(space, gamma=0)` evaluates exactly as `L1Norm(space)`
on a plain tensor-space domain and exactly as `GroupL1Norm(space, 2)` on a
product-space domain. -/
theorem huber_gamma_zero_eq (k m : ℕ) (x : Fin (k + 1) → ℝ)
    (y : Fin m → Fin (k + 1) → ℝ) :
    huberEval 0 x = lpNormEval (Exp.fin 1) x ∧
    huberEvalProd 0 y = groupL1Eval y := by
  constructor
  · rw [huberEval, huberEvalBase, if_neg (lt_irrefl 0), lpNormEval,
      if_neg (by norm_num : (1 : ℝ) ≠ 0), if_pos rfl]
  · rw [huberEvalProd, huberEvalBase, if_neg (lt_irrefl 0), groupL1Eval]

/-- Default relative sum tolerance of `IndicatorSimplex.__init__`:
`1e-10 * size` when the domain dtype is `float64` and `1e-6 * size`
otherwise. -/
noncomputable def defaultSumRtol (isFloat64 : Bool) (size : ℕ) : ℝ :=
  if isFloat64 then 1e-10 * size else 1e-6 * size

/-- `IndicatorSimplex._call`: `0` when `|x.sum() / diameter - 1| <= rtol`
and every component of `x` is (exactly) nonnegative, `+inf` otherwise. -/
noncomputable def indicatorSimplexEval (diameter sumRtol : ℝ)
    (x : Fin k → ℝ) : EReal :=
  if |(∑ i, x i) / diameter - 1| ≤ sumRtol ∧ ∀ i, 0 ≤ x i then 0 else ⊤

/-- Claim C7: `IndicatorSimplex(space, diameter, sum_rtol)` evaluates to
`0` iff every component is nonnegative (exactly) and the sum is within the
relative tolerance of the diameter, and to `+inf` otherwise; the default
tolerance is `1e-10 * size` for `float64` domains and `1e-6 * size`
otherwise. -/
theorem indicatorSimplex_eval_characterization (k : ℕ) (d rtol : ℝ)
    (x : Fin k → ℝ) :
    (indicatorSimplexEval d rtol x = 0 ↔
      (|(∑ i, x i) / d - 1| ≤ rtol ∧ ∀ i, 0 ≤ x i)) ∧
    (indicatorSimplexEval d rtol x = ⊤ ↔
      ¬(|(∑ i, x i) / d - 1| ≤ rtol ∧ ∀ i, 0 ≤ x i)) ∧
    (∀ s : ℕ, defaultSumRtol true s = 1e-10 * s ∧
      defaultSumRtol false s = 1e-6 * s) := by
  refine ⟨?_, ?_, fun s => ⟨rfl, rfl⟩⟩ <;>
    · rw [indicatorSimplexEval]
      by_cases h : |(∑ i, x i) / d - 1| ≤ rtol ∧ ∀ i, 0 ≤ x i
      · rw [if_pos h]
        simp [h]
      · rw [if_neg h]
        simp [h]

/-- `IndicatorZero(space, constant)`: only the data the claims need, the
constant offset. -/
structure IndicatorZeroF (k : ℕ) : Type where
  constant : ℝ

/-- `IndicatorZero._call`: `constant` when `x.norm() == 0`, `+inf`
otherwise. -/
noncomputable def IndicatorZeroF.eval (f : IndicatorZeroF k)
    (x : Fin k → ℝ) : EReal :=
  if euclNorm x = 0 then (f.constant : ℝ) else ⊤

/-- `IndicatorZero.proximal`: the factory `zero_proximal` ignores the step
size and returns `ZeroOperator(domain)`, the operator mapping every element
to the zero element of the domain. -/
def IndicatorZeroF.proximal (_f : IndicatorZeroF k) (_sigma : ℝ) :
    (Fin k → ℝ) → Fin k → ℝ :=
  fun _ => 0

/-- Claim C9: the proximal operator produced by `IndicatorZero.proximal`
maps every point to the zero element, for every step size, and the result
is independent of the step size and of the functional's constant. -/
theorem indicatorZero_proximal_zero (k : ℕ) (f g : IndicatorZeroF k)
    (sigma tau : ℝ) (x : Fin k → ℝ) :
    f.proximal sigma x = 0 ∧ f.proximal sigma x = g.proximal tau x :=
  ⟨rfl, rfl⟩

/-- An invertible linear operator on `R^n`: a matrix together with the
matrix of its inverse operator (`Operator.inverse`; inverting twice gives
back the original operator, and the adjoint is the transpose). -/
structure InvOp (n : ℕ) : Type where
  mat : Matrix (Fin n) (Fin n) ℝ
  matInv : Matrix (Fin n) (Fin n) ℝ

/-- `Operator.inverse`. -/
def InvOp.inverse (T : InvOp n) : InvOp n := ⟨T.matInv, T.mat⟩

/-- `QuadraticForm(operator, vector, constant)`: the functional
`x ↦ x.inner(operator(x)) + vector.inner(x) + constant` with optional
quadratic and linear parts (the constructor rejects the case where both
`operator` and `vector` are `None`). -/
structure QuadForm (n : ℕ) : Type where
  operator : Option (InvOp n)
  vector : Option (Fin n → ℝ)
  constant : ℝ

/-- `QuadraticForm.__init__` computes
`linear = (operator is None and constant == 0)`. -/
def QuadForm.isLinear (f : QuadForm n) : Prop :=
  f.operator.isNone = true ∧ f.constant = 0

/-- `QuadraticForm._call` (the arm with both parts absent is unreachable:
the constructor raises there). -/
noncomputable def QuadForm.eval (f : QuadForm n) (x : Fin n → ℝ) : ℝ :=
  match f.operator, f.vector with
  | none, none => f.constant
  | none, some b => Matrix.dotProduct b x + f.constant
  | some A, none => Matrix.dotProduct x (A.mat.mulVec x) + f.constant
  | some A, some b => Matrix.dotProduct x (A.mat.mulVec x + b) + f.constant

/-- `QuadraticForm.convex_conj`, restricted to the quadratic case: with
operator `A` and no vector the conjugate is `QuadraticForm(A⁻¹, -c)`; with
operator `A` and vector `b` it is `QuadraticForm` of `A⁻¹`, vector
`-A⁻ᵀ b - A⁻¹ b` and constant `<b, A⁻¹ b> - c`.  Without an operator the
code returns a translated `IndicatorZero`, not a `QuadraticForm` (`none`
here). -/
noncomputable def QuadForm.convexConj (f : QuadForm n) : Option (QuadForm n) :=
  match f.operator, f.vector with
  | none, _ => none
  | some A, none => some ⟨some A.inverse, none, -f.constant⟩
  | some A, some b =>
      some ⟨some A.inverse,
            some (-(A.matInv.transpose.mulVec b) - A.matInv.mulVec b),
            Matrix.dotProduct b (A.matInv.mulVec b) - f.constant⟩

/-- The failing instance for claim C1: the quadratic form
`x ↦ <x, x> + <1, x>` on `R^1` (operator the identity, which is
self-adjoint and its own inverse; vector `[1]`; constant `0`). -/
noncomputable def qfEx : QuadForm 1 := ⟨some ⟨1, 1⟩, some ![1], 0⟩

/-- Claim C1, evaluation at the failing input: the double conjugate of
`qfEx` evaluates to `3` at `x = [0]`, while the original form evaluates to
`0` there — `convex_conj.convex_conj` does not reconstruct the original
form when the vector is nonzero (the conjugate formula of the code lacks
the factor `1/4`, so the errors only cancel when the vector vanishes). -/
theorem quadraticForm_biconjugate_failing :
    (qfEx.convexConj.bind QuadForm.convexConj).map (fun h => h.eval ![0])
      = some 3 ∧
    qfEx.eval ![0] = 0 := by
  constructor
  · rw [show qfEx.convexConj
        = some ⟨some ⟨1, 1⟩,
               some (-((1 : Matrix (Fin 1) (Fin 1) ℝ).transpose.mulVec ![1])
                  - (1 : Matrix (Fin 1) (Fin 1) ℝ).mulVec ![1]),
               Matrix.dotProduct ![1]
                 ((1 : Matrix (Fin 1) (Fin 1) ℝ).mulVec ![1]) - 0⟩ from rfl]
    rw [Matrix.transpose_one, Matrix.one_mulVec]
    rw [show (-(![1] : Fin 1 → ℝ) - ![1]) = ![(-2 : ℝ)] by
      funext i
      fin_cases i
      simp [Matrix.cons_val_zero]
      norm_num]
    rw [show Matrix.dotProduct (![1] : Fin 1 → ℝ) ![1] = 1 by
      simp [Matrix.dotProduct, Fin.sum_univ_one]]
    rw [show Option.bind
        (some (⟨some ⟨1, 1⟩, some ![(-2 : ℝ)], 1 - 0⟩ : QuadForm 1))
        QuadForm.convexConj
        = some ⟨some ⟨1, 1⟩,
               some (-((1 : Matrix (Fin 1) (Fin 1) ℝ).transpose.mulVec ![(-2 : ℝ)])
                  - (1 : Matrix (Fin 1) (Fin 1) ℝ).mulVec ![(-2 : ℝ)]),
               Matrix.dotProduct ![(-2 : ℝ)]
                 ((1 : Matrix (Fin 1) (Fin 1) ℝ).mulVec ![(-2 : ℝ)]) - (1 - 0)⟩
        from rfl]
    rw [Matrix.transpose_one, Matrix.one_mulVec]
    rw [show Matrix.dotProduct (![(-2 : ℝ)] : Fin 1 → ℝ) ![(-2 : ℝ)] = 4 by
      simp [Matrix.dotProduct, Fin.sum_univ_one]
      norm_num]
    rw [Option.map_some']
    rw [show QuadForm.eval
        ⟨some ⟨1, 1⟩, some (-(![(-2 : ℝ)] : Fin 1 → ℝ) - ![(-2 : ℝ)]),
         4 - (1 - 0)⟩ ![0]
        = Matrix.dotProduct ![0]
            ((1 : Matrix (Fin 1) (Fin 1) ℝ).mulVec ![0]
              + (-(![(-2 : ℝ)] : Fin 1 → ℝ) - ![(-2 : ℝ)]))
          + (4 - (1 - 0)) from rfl]
    rw [Matrix.one_mulVec]
    rw [show Matrix.dotProduct (![0] : Fin 1 → ℝ)
        ((![0] : Fin 1 → ℝ) + (-(![(-2 : ℝ)] : Fin 1 → ℝ) - ![(-2 : ℝ)])) = 0 by
      simp [Matrix.dotProduct, Fin.sum_univ_one]]
    norm_num
  · rw [show qfEx.eval ![0]
        = Matrix.dotProduct ![0]
            ((1 : Matrix (Fin 1) (Fin 1) ℝ).mulVec ![0] + ![1]) + 0 from rfl]
    rw [show Matrix.dotProduct (![0] : Fin 1 → ℝ)
        ((1 : Matrix (Fin 1) (Fin 1) ℝ).mulVec ![0] + ![1]) = 0 by
      simp [Matrix.dotProduct, Fin.sum_univ_one]]
    norm_num

/-- Claim C10: a `QuadraticForm` has `is_linear = True` iff it was
constructed with `operator = None` and `constant = 0`; in that case (with a
vector present, as the constructor requires) it evaluates as the pure
inner-product functional `x ↦ <b, x>`. -/
theorem quadraticForm_isLinear_iff (n : ℕ) (op : Option (InvOp n))
    (v : Option (Fin n → ℝ)) (c : ℝ) :
    ((QuadForm.mk op v c).isLinear ↔ op = none ∧ c = 0) ∧
    (∀ (b : Fin n → ℝ) (x : Fin n → ℝ),
       (QuadForm.mk none (some b) 0).eval x = Matrix.dotProduct b x) := by
  constructor
  · rw [QuadForm.isLinear]
    cases op <;> simp [Option.isNone]
  · intro b x
    rw [show (QuadForm.mk none (some b) 0).eval x
        = Matrix.dotProduct b x + 0 from rfl]
    rw [add_zero]
